import Mathlib

/-!
Verification development for the blackjack rules engine (`blackjack.py`).

The Python classes `Card`, `Deck`, `Hand`, `Player` and the relevant parts of
`Game` are embedded shallowly below.  Machine integers are modelled as `Int`
(Python ints are unbounded), chip arithmetic as `Int`, the float odds passed to
`Player.win` as `ℚ` with Python's `int()` truncation made explicit, and the
Python `assert` statements as `Option` results (`none` = `AssertionError`).
`random.shuffle` is modelled as an oracle that may apply an arbitrary
permutation to the list it is given.  The interactive `get_response`/`input`
collaborators are modelled as a list of pending user responses.
-/

/-- The thirteen card ranks, `CARD_RANK` in the source
(`"A","K","Q","J","10",...,"2"`). -/
inductive Rank where
  | A | K | Q | J | N10 | N9 | N8 | N7 | N6 | N5 | N4 | N3 | N2
deriving DecidableEq

/-- The four suits, `CARD_SUIT` in the source. -/
inductive Suit where
  | hearts | diamonds | clubs | spades
deriving DecidableEq

/-- `Card`: rank plus suit.  The constructor asserts of `Card.__init__`
(rank/suit must come from the fixed tuples) are captured by the types. -/
structure Card where
  rank : Rank
  suit : Suit
deriving DecidableEq

/-- `Card.value`: an Ace is 11, a numeric rank is its number, and a
face card (`int(rank)` raises `ValueError`) is 10. -/
def Card.value (c : Card) : Nat :=
  match c.rank with
  | .A => 11
  | .K => 10 | .Q => 10 | .J => 10
  | .N10 => 10 | .N9 => 9 | .N8 => 8 | .N7 => 7 | .N6 => 6
  | .N5 => 5 | .N4 => 4 | .N3 => 3 | .N2 => 2

/-- `Card.ace`: is this card an ace? (`self.rank == "A"`). -/
def Card.ace (c : Card) : Bool :=
  decide (c.rank = Rank.A)

/-- The order `CARD_RANK` is iterated in by `Deck.__new_deck`. -/
def CARD_RANK : List Rank :=
  [.A, .K, .Q, .J, .N10, .N9, .N8, .N7, .N6, .N5, .N4, .N3, .N2]

/-- The order `CARD_SUIT` is iterated in by `Deck.__new_deck`. -/
def CARD_SUIT : List Suit :=
  [.hearts, .diamonds, .clubs, .spades]

/-- `Deck.__new_deck`: one card per rank/suit combination, 52 in total,
in the generator's iteration order. -/
def newDeck : List Card :=
  CARD_RANK.flatMap fun r => CARD_SUIT.map fun s => ⟨r, s⟩

/-- `Deck`: the mutable list of cards; Python deals by `list.pop()`, i.e.
from the end of the list. -/
structure Deck where
  cards : List Card
deriving DecidableEq

/-- Oracle for `random.shuffle`: an in-place shuffle can reorder the list but
can neither drop nor duplicate cards, so it is modelled as an arbitrary
length-and-content preserving permutation. -/
structure Shuffler where
  shuffle : List Card → List Card
  perm : ∀ l, (shuffle l).Perm l

/-- The trivial shuffle oracle (shuffling that leaves the order unchanged). -/
def idSh : Shuffler :=
  ⟨fun l => l, fun l => List.Perm.refl l⟩

/-- `Deck.deal`: if the deck is empty, replenish it with a fresh shuffled
52-card deck first, then `pop()` a card off the end.  It can never fail for
lack of cards, because the shuffle oracle preserves the 52 fresh cards. -/
def Deck.deal (σ : Shuffler) (d : Deck) : Card × Deck :=
  match d.cards with
  | [] =>
      ((σ.shuffle newDeck).getLast (by
        intro hnil
        have hlen : (σ.shuffle newDeck).length = newDeck.length :=
          (σ.perm newDeck).length_eq
        rw [hnil] at hlen
        exact absurd hlen (by decide)),
       ⟨(σ.shuffle newDeck).dropLast⟩)
  | c :: rest =>
      ((c :: rest).getLast (List.cons_ne_nil c rest), ⟨(c :: rest).dropLast⟩)

/-- The softening loop of `Hand.value`:
`while value > 21 and aces > 0: aces -= 1; value -= 10`. -/
def soften : Nat → Nat → Nat
  | v, 0 => v
  | v, a + 1 => if 21 < v then soften (v - 10) a else v

/-- `Hand`: the cards held for one bet, the stake riding on them, and the
`active` round flag. -/
structure Hand where
  cards : List Card
  stake : Int
  active : Bool
deriving DecidableEq

/-- `Hand.__init__(stake)`: no cards, the given stake, active. -/
def Hand.init (stake : Int) : Hand :=
  ⟨[], stake, true⟩

/-- `Hand.add_card`: append the card to the hand. -/
def Hand.add_card (h : Hand) (c : Card) : Hand :=
  {h with cards := h.cards ++ [c]}

/-- `Hand.value`: count the aces, sum the card values, then soften. -/
def Hand.value (h : Hand) : Nat :=
  soften ((h.cards.map Card.value).sum) (h.cards.countP Card.ace)

/-- `Hand.blackjack`: exactly two cards worth 21. -/
def Hand.blackjack (h : Hand) : Bool :=
  decide (h.cards.length = 2 ∧ h.value = 21)

/-- `Hand.twenty_one`: the hand is worth exactly 21. -/
def Hand.twenty_one (h : Hand) : Bool :=
  decide (h.value = 21)

/-- `Hand.bust`: the hand is worth more than 21. -/
def Hand.bust (h : Hand) : Bool :=
  decide (21 < h.value)

/-- `Hand.pair`: exactly two cards of the same rank (`first` and `last` of a
two-card hand are its two cards). -/
def Hand.pair (h : Hand) : Bool :=
  match h.cards with
  | [c1, c2] => decide (c1.rank = c2.rank)
  | _ => false

/-- `Hand.split`: `assert self.pair()` (modelled as `none` on failure), then
pop the last card into a fresh `Hand` carrying the same stake.  Returns the
updated original hand and the new one-card hand. -/
def Hand.split (h : Hand) : Option (Hand × Hand) :=
  match h.cards with
  | [c1, c2] =>
      if c1.rank = c2.rank then
        some ({h with cards := [c1]}, ⟨[c2], h.stake, true⟩)
      else none
  | _ => none

/-! ### The specification's reference hand-value computation

The spec describes the value of a hand as: sum the per-card face values, then,
while the total exceeds 21 and at least one Ace is still counted as 11, pick
one such Ace and reduce its contribution from 11 to 1.  This is formalised
over the explicit list of per-card contributions (an Ace counted as 11 is
precisely a contribution equal to 11, since no other rank contributes 11):
the reduction loop runs at most once per Ace, so the Ace count bounds it. -/

/-- One reference reduction step: re-count the first Ace still counted as 11
(contribution 11) as 1. -/
def specSoftenStep : List Nat → List Nat
  | [] => []
  | v :: rest => if v = 11 then 1 :: rest else v :: specSoftenStep rest

/-- The reference reduction loop: while the total exceeds 21 and some Ace is
still counted as 11, soften one Ace.  The loop softens each Ace at most once,
so the number of 11-contributions is sufficient fuel. -/
def specReduceF : Nat → List Nat → List Nat
  | 0, l => l
  | f + 1, l =>
      if 21 < l.sum ∧ 11 ∈ l then specReduceF f (specSoftenStep l) else l

/-- The specification's reference value of a sequence of cards. -/
def specValue (cards : List Card) : Nat :=
  (specReduceF ((cards.map Card.value).count 11) (cards.map Card.value)).sum

/-! ### Player -/

/-- Python's `int()` applied to a rational: truncation toward zero. -/
def pyInt (q : ℚ) : Int :=
  q.num.tdiv (q.den : Int)

/-- The `results` tally dictionary of a `Player`. -/
structure Results where
  wins : Nat
  ties : Nat
  losses : Nat
deriving DecidableEq

/-- `Player`: chip balance, hands of the current round, and the cumulative
tally.  (The cosmetic `name`/`color` fields and the `insurance` side-bet are
not modelled: no claim mentions them.) -/
structure Player where
  chips : Int
  hands : List Hand
  results : Results
deriving DecidableEq

/-- `Player.__init__`: `assert chips > 0` (modelled as `none` on failure);
starts with no hands and a zeroed tally. -/
def Player.make (chips : Int) : Option Player :=
  if 0 < chips then some ⟨chips, [], ⟨0, 0, 0⟩⟩ else none

/-- `Player.has_chips(amount=0)`: `assert amount >= 0`; with no amount the
player must merely have a positive balance, otherwise the balance must cover
the amount. -/
def Player.has_chips (p : Player) (amount : Int) : Option Bool :=
  if amount < 0 then none
  else if amount = 0 then some (decide (0 < p.chips))
  else some (decide (amount ≤ p.chips))

/-- `Player.can_double_down(hand)`: the player can cover the hand's stake and
the hand either has exactly two cards or is worth 9, 10 or 11. -/
def Player.can_double_down (p : Player) (h : Hand) : Option Bool :=
  match p.has_chips h.stake with
  | none => none
  | some b =>
      some (b && (decide (h.cards.length = 2) ||
        (decide (h.value = 9) || decide (h.value = 10) || decide (h.value = 11))))

/-- `Player.can_split(hand)`: the player can cover the hand's stake and the
hand is a pair. -/
def Player.can_split (p : Player) (h : Hand) : Option Bool :=
  match p.has_chips h.stake with
  | none => none
  | some b => some (b && h.pair)

/-- `Player.push(bet)`: `assert bet > 0`; the stake comes back and the tie
tally increments. -/
def Player.push (p : Player) (bet : Int) : Option Player :=
  if 0 < bet then
    some {p with chips := p.chips + bet,
                 results := {p.results with ties := p.results.ties + 1}}
  else none

/-- `Player.win(bet, odds=1)`: `assert bet > 0`, `assert odds >= 1`; credits
`int(bet * (odds + 1))` chips and increments the win tally. -/
def Player.win (p : Player) (bet : Int) (odds : ℚ) : Option Player :=
  if 0 < bet ∧ 1 ≤ odds then
    some {p with chips := p.chips + pyInt ((bet : ℚ) * (odds + 1)),
                 results := {p.results with wins := p.results.wins + 1}}
  else none

/-- `Player.loss()`: only the loss tally moves. -/
def Player.loss (p : Player) : Player :=
  {p with results := {p.results with losses := p.results.losses + 1}}

/-- `Player.bet(bet)`: `assert bet > 0` and `assert self.has_chips(bet)`;
debits the chips.  (Python also returns the amount to the caller.) -/
def Player.bet (p : Player) (amount : Int) : Option Player :=
  if 0 < amount then
    match p.has_chips amount with
    | some true => some {p with chips := p.chips - amount}
    | _ => none
  else none

/-- `Game.settle_outcome(dealer, player, hand)`: deactivate the hand, then
either win (dealer beaten or busted; blackjack pays 3:2, otherwise evens),
push on equal values, or record a loss. -/
def settle_outcome (dealer : Hand) (p : Player) (h : Hand) :
    Option (Player × Hand) :=
  let h1 := {h with active := false}
  if dealer.value < h.value ∨ dealer.bust = true then
    match p.win h.stake (if h.blackjack then (3 / 2 : ℚ) else 1) with
    | some p1 => some (p1, h1)
    | none => none
  else if h.value = dealer.value then
    match p.push h.stake with
    | some p1 => some (p1, h1)
    | none => none
  else
    some (p.loss, h1)

/-- The drawing loop of `Game.dealer_turn`:
`while dealer.value() < 17: self.__deal_card("Dealer", dealer)`.
The `while` loop is embedded with explicit fuel; any fuel reaching 17 minus
the current number of cards is sufficient (see the fuel-stability theorem). -/
def dealerLoop (σ : Shuffler) : Nat → Hand × Deck → Hand × Deck
  | 0, st => st
  | f + 1, st =>
      if st.1.value < 17 then
        let cd := st.2.deal σ
        dealerLoop σ f (st.1.add_card cd.1, cd.2)
      else st

/-! ### The player-turns phase

The round's player-turn loop (`main` / `Game.play_hand` / `Game.split_hand` /
`Game.hit` / `Game.bust` / `Game.double_down`) is embedded as a state machine
over one player.  Pending user inputs are a list of responses (an exhausted
list behaves as the user pressing return, which selects the prompt's default,
exactly as `get_response` does on empty input); the `while` loops carry
explicit fuel.  Python iterates `player.hands` by index, so the hand a
`split` appends *is* reached by the same `for hand in player.active_hands()`
loop; the model iterates by index accordingly.  Besides the faithful state,
the model keeps an event log `splitLog` recording the index of every hand on
which a split is actually performed: since the phase starts from a one-hand
player and only `split_hand` appends hands, a hand at index ≥ 1 is precisely
a hand that was created by `Hand.split`.  An unreachable `AssertionError`
(e.g. `Player.bet` failing) sets `err` and halts the phase. -/

/-- A user response: hit, stand, double down, yes, no. -/
inductive Resp where
  | H | S | D | Y | N
deriving DecidableEq

/-- `get_response(question, accepted, default)`: take the next input that is
in the accepted set, re-prompting past ones that are not; an exhausted input
list means the user presses return, choosing the default. -/
def getResponse (rs : List Resp) (accepted : List Resp) (dflt : Resp) :
    Resp × List Resp :=
  match rs with
  | [] => (dflt, [])
  | r :: rest => if r ∈ accepted then (r, rest) else getResponse rest accepted dflt

/-- The mutable state of one player's turn phase. -/
structure TurnState where
  deck : Deck
  player : Player
  responses : List Resp
  splitLog : List Nat
  err : Bool
deriving DecidableEq

/-- `Game.__deal_card(name, hand, ...)` for the hand at index `i`: pop a card
from the deck and append it to that hand. -/
def dealCardToHand (σ : Shuffler) (st : TurnState) (i : Nat) : TurnState :=
  let cd := st.deck.deal σ
  match st.player.hands[i]? with
  | none => {st with deck := cd.2}
  | some h =>
      {st with
        deck := cd.2
        player := {st.player with
          hands := st.player.hands.set i (h.add_card cd.1)}}

/-- `Game.bust(player, hand)` for the hand at index `i`: record the loss and
deactivate the hand. -/
def bustHand (st : TurnState) (i : Nat) (h : Hand) : TurnState :=
  {st with player := {st.player with
    hands := st.player.hands.set i {h with active := false}
    results := {st.player.results with
      losses := st.player.results.losses + 1}}}

/-- `Game.split_hand(player, hand)` for the hand at index `i`: if the hand is
a pair and the player can cover its stake, ask (default yes); on yes, split
the hand, re-debit the stake, deal one card to each resulting hand, append
the new hand to the player's list, and log the split. -/
def split_hand (σ : Shuffler) (st : TurnState) (i : Nat) : TurnState :=
  match st.player.hands[i]? with
  | none => st
  | some h =>
      if h.pair then
        match st.player.has_chips h.stake with
        | none => {st with err := true}
        | some false => st
        | some true =>
            let rr := getResponse st.responses [Resp.Y, Resp.N] Resp.Y
            let st1 := {st with responses := rr.2}
            if rr.1 = Resp.Y then
              match h.split with
              | none => {st1 with err := true}
              | some (h1, newHand) =>
                  match st1.player.bet h.stake with
                  | none => {st1 with err := true}
                  | some p1 =>
                      let st2 := {st1 with player :=
                        {p1 with hands := p1.hands.set i h1}}
                      let st3 := dealCardToHand σ st2 i
                      let cd := st3.deck.deal σ
                      {st3 with
                        deck := cd.2
                        player := {st3.player with
                          hands := st3.player.hands ++ [newHand.add_card cd.1]}
                        splitLog := st3.splitLog ++ [i]}
            else st1
      else st

/-- `Game.double_down(player, hand)` for the hand at index `i`: re-debit the
stake, double the hand's stake, deal one card, and settle immediately if that
busts the hand. -/
def doubleDown (σ : Shuffler) (st : TurnState) (i : Nat) : TurnState :=
  match st.player.hands[i]? with
  | none => st
  | some h =>
      match st.player.bet h.stake with
      | none => {st with err := true}
      | some p1 =>
          let st1 := {st with player :=
            {p1 with hands := p1.hands.set i {h with stake := h.stake + h.stake}}}
          let st2 := dealCardToHand σ st1 i
          match st2.player.hands[i]? with
          | none => st2
          | some h2 => if h2.bust then bustHand st2 i h2 else st2

/-- The `while hand.active:` loop of `Game.play_hand` for the hand at index
`i`: stop on 21; settle a bust; otherwise offer hit/stand (plus double down
when eligible, default hit) and act on the answer. -/
def playHandLoop (σ : Shuffler) : Nat → TurnState → Nat → TurnState
  | 0, st, _ => st
  | f + 1, st, i =>
      match st.player.hands[i]? with
      | none => st
      | some h =>
          if h.active = false then st
          else if h.twenty_one then st
          else if h.bust then bustHand st i h
          else
            match st.player.can_double_down h with
            | none => {st with err := true}
            | some b =>
                let answers :=
                  if b then [Resp.H, Resp.S, Resp.D] else [Resp.H, Resp.S]
                let rr := getResponse st.responses answers Resp.H
                let st1 := {st with responses := rr.2}
                if rr.1 = Resp.H then
                  playHandLoop σ f (dealCardToHand σ st1 i) i
                else if rr.1 = Resp.S then st1
                else doubleDown σ st1 i

/-- `Game.play_hand(player, hand)` for the hand at index `i`: offer a split
when `can_split` allows one, then run the decision loop. -/
def play_hand (σ : Shuffler) (f : Nat) (st : TurnState) (i : Nat) : TurnState :=
  match st.player.hands[i]? with
  | none => st
  | some h =>
      match st.player.can_split h with
      | none => {st with err := true}
      | some true =>
          let st1 := split_hand σ st i
          if st1.err then st1 else playHandLoop σ f st1 i
      | some false => playHandLoop σ f st i

/-- The `for hand in player.active_hands(): game.play_hand(player, hand)`
loop of `main`: iterate the player's hands by index (Python list iterators
see the hands a split appends), playing each hand that is still active. -/
def playHands (σ : Shuffler) : Nat → TurnState → Nat → TurnState
  | 0, st, _ => st
  | f + 1, st, i =>
      if st.err then st
      else
        match st.player.hands[i]? with
        | none => st
        | some h =>
            if h.active then
              let st1 := play_hand σ f st i
              if st1.err then st1 else playHands σ f st1 (i + 1)
            else playHands σ f st (i + 1)

/-- A state at the start of the player-turns phase: the player holds a single
(dealt) hand — so any hand at index ≥ 1 during the phase was created by
`Hand.split` — with an empty split log and no error. -/
def InitialTurnState (st : TurnState) : Prop :=
  st.player.hands.length = 1 ∧ st.splitLog = [] ∧ st.err = false

/-! ### Concrete test fixtures -/

/-- The ace of hearts. -/
def cAh : Card := ⟨.A, .hearts⟩

/-- The ace of spades. -/
def cAs : Card := ⟨.A, .spades⟩

/-- The king of hearts. -/
def cKh : Card := ⟨.K, .hearts⟩

/-- The queen of hearts. -/
def cQh : Card := ⟨.Q, .hearts⟩

/-- The jack of hearts. -/
def cJh : Card := ⟨.J, .hearts⟩

/-- The jack of diamonds. -/
def cJd : Card := ⟨.J, .diamonds⟩

/-- The ten of hearts. -/
def c10h : Card := ⟨.N10, .hearts⟩

/-- The ten of diamonds. -/
def c10d : Card := ⟨.N10, .diamonds⟩

/-- The eight of hearts. -/
def c8h : Card := ⟨.N8, .hearts⟩

/-- The eight of diamonds. -/
def c8d : Card := ⟨.N8, .diamonds⟩

/-- The eight of clubs. -/
def c8c : Card := ⟨.N8, .clubs⟩

/-- The six of hearts. -/
def c6h : Card := ⟨.N6, .hearts⟩

/-- The five of hearts. -/
def c5h : Card := ⟨.N5, .hearts⟩

/-- The five of diamonds. -/
def c5d : Card := ⟨.N5, .diamonds⟩

/-- The three of hearts. -/
def c3h : Card := ⟨.N3, .hearts⟩

/-- The two of hearts. -/
def c2h : Card := ⟨.N2, .hearts⟩

/-- The two of diamonds. -/
def c2d : Card := ⟨.N2, .diamonds⟩

/-- A player with 100 chips, no hands, and a zeroed tally. -/
def p0 : Player := ⟨100, [], ⟨0, 0, 0⟩⟩

/-- A reachable start of the player-turns phase: the player bet 10 out of 100
chips and was dealt the pair 8♡ 8♢; the next cards the deck will deal are
5♡, 8♧, 2♡, 3♡ (Python pops from the end); the user will answer
Y, S, Y, S, S. -/
def st0 : TurnState :=
  ⟨⟨[c3h, c2h, c8c, c5h]⟩,
   ⟨90, [⟨[c8h, c8d], 10, true⟩], ⟨0, 0, 0⟩⟩,
   [Resp.Y, Resp.S, Resp.Y, Resp.S, Resp.S],
   [], false⟩

/-- A phase state whose hand at index 1 (a hand in split position) is the
pair 8♢ 8♧ with stake 10, with 50 chips left and a pending yes. -/
def stA : TurnState :=
  ⟨⟨[]⟩,
   ⟨50, [⟨[], 0, false⟩, ⟨[c8d, c8c], 10, true⟩], ⟨0, 0, 0⟩⟩,
   [Resp.Y],
   [], false⟩

/-! ### Arithmetic facts about the softening loop -/

theorem soften_le (a : Nat) : ∀ v, soften v a ≤ v := by
  induction a with
  | zero => intro v; simp [soften]
  | succ a ih =>
      intro v
      simp only [soften]
      split
      · exact le_trans (ih (v - 10)) (Nat.sub_le v 10)
      · exact le_rfl

theorem sub_le_soften (a : Nat) : ∀ v, v - 10 * a ≤ soften v a := by
  induction a with
  | zero => intro v; simp [soften]
  | succ a ih =>
      intro v
      simp only [soften]
      split
      · have := ih (v - 10); omega
      · omega

theorem soften_add_le (a : Nat) : ∀ v d, soften (v + d) a ≤ soften v a + d := by
  induction a with
  | zero => intro v d; simp [soften]
  | succ a ih =>
      intro v d
      simp only [soften]
      by_cases hvd : 21 < v + d
      · rw [if_pos hvd]
        by_cases hv : 21 < v
        · rw [if_pos hv]
          have := ih (v - 10) d
          have heq : v + d - 10 = v - 10 + d := by omega
          rw [heq]
          exact this
        · rw [if_neg hv]
          have := soften_le a (v + d - 10)
          omega
      · rw [if_neg hvd]
        have hv : ¬ 21 < v := by omega
        rw [if_neg hv]

theorem soften_succ_le (a : Nat) : ∀ v, soften v (a + 1) ≤ soften v a := by
  induction a with
  | zero =>
      intro v
      simp only [soften]
      split
      · exact Nat.sub_le v 10
      · exact le_rfl
  | succ a ih =>
      intro v
      conv_lhs => simp only [soften]
      conv_rhs => simp only [soften]
      split
      · exact ih (v - 10)
      · exact le_rfl

/-! ### Arithmetic facts about card and hand values -/

theorem Card.two_le_value (c : Card) : 2 ≤ c.value := by
  rcases c with ⟨r, s⟩
  cases r <;> simp [Card.value]

theorem Card.value_le_eleven (c : Card) : c.value ≤ 11 := by
  rcases c with ⟨r, s⟩
  cases r <;> simp [Card.value]

theorem Card.ace_value (c : Card) (h : c.ace = true) : c.value = 11 := by
  rcases c with ⟨r, s⟩
  cases r <;> simp_all [Card.value, Card.ace]

theorem Card.nonace_value (c : Card) (h : c.ace = false) : c.value ≤ 10 := by
  rcases c with ⟨r, s⟩
  cases r <;> simp_all [Card.value, Card.ace]

theorem Card.value_eq_eleven_iff (c : Card) : c.value = 11 ↔ c.ace = true := by
  rcases c with ⟨r, s⟩
  cases r <;> simp [Card.value, Card.ace]

theorem cards_sum_bound (cards : List Card) :
    2 * cards.length + 9 * (cards.countP Card.ace) ≤
      (cards.map Card.value).sum := by
  induction cards with
  | nil => simp
  | cons c t ih =>
      simp only [List.map_cons, List.sum_cons, List.countP_cons, List.length_cons]
      by_cases hc : c.ace = true
      · have := Card.ace_value c hc
        simp [hc]
        omega
      · have hba : Card.ace c = false := by
          revert hc
          cases Card.ace c <;> simp
        have := Card.two_le_value c
        simp [hba]
        omega

theorem Hand.length_le_value (h : Hand) : h.cards.length ≤ h.value := by
  have h1 := cards_sum_bound h.cards
  have h2 := sub_le_soften (h.cards.countP Card.ace) ((h.cards.map Card.value).sum)
  have h3 : h.cards.countP Card.ace ≤ h.cards.length := List.countP_le_length _
  rw [Hand.value]
  omega

theorem Hand.add_card_value (h : Hand) (c : Card) :
    (h.add_card c).value =
      soften ((h.cards.map Card.value).sum + c.value)
        (h.cards.countP Card.ace + (if c.ace then 1 else 0)) := by
  simp [Hand.add_card, Hand.value, List.countP_append, List.countP_cons]

theorem Hand.add_card_value_le (h : Hand) (c : Card) :
    (h.add_card c).value ≤ h.value + c.value := by
  rw [Hand.add_card_value, Hand.value]
  by_cases hc : c.ace = true
  · rw [hc]
    simp only [if_pos rfl]
    calc soften ((h.cards.map Card.value).sum + c.value)
          (h.cards.countP Card.ace + 1)
        ≤ soften ((h.cards.map Card.value).sum + c.value)
            (h.cards.countP Card.ace) := soften_succ_le _ _
      _ ≤ soften ((h.cards.map Card.value).sum) (h.cards.countP Card.ace)
            + c.value := soften_add_le _ _ _
  · have hb : Card.ace c = false := by revert hc; cases Card.ace c <;> simp
    rw [hb]
    simp only [Bool.false_eq_true, if_false, Nat.add_zero]
    exact soften_add_le _ _ _

theorem Hand.add_card_le_26 (h : Hand) (c : Card) (hv : h.value ≤ 16) :
    (h.add_card c).value ≤ 26 := by
  by_cases hc : c.ace = true
  · rw [Hand.add_card_value]
    rw [hc]
    simp only [if_pos rfl]
    have hcv := Card.ace_value c hc
    rw [hcv]
    by_cases hs : 21 < (h.cards.map Card.value).sum + 11
    · simp only [soften, if_pos hs]
      have h1 : (h.cards.map Card.value).sum + 11 - 10 =
          (h.cards.map Card.value).sum + 1 := by omega
      rw [h1]
      have h2 := soften_add_le (h.cards.countP Card.ace)
        ((h.cards.map Card.value).sum) 1
      rw [Hand.value] at hv
      omega
    · simp only [soften, if_neg hs]
      omega
  · have hb : Card.ace c = false := by revert hc; cases Card.ace c <;> simp
    have h1 := Hand.add_card_value_le h c
    have h2 := Card.nonace_value c hb
    omega

/-! ### The reference value computation agrees with `Hand.value` -/

theorem specSoftenStep_sum (l : List Nat) (h : 11 ∈ l) :
    (specSoftenStep l).sum + 10 = l.sum := by
  induction l with
  | nil => cases h
  | cons v t ih =>
      by_cases hv : v = 11
      · subst hv
        simp [specSoftenStep]
        omega
      · have ht : 11 ∈ t := by
          rcases List.mem_cons.mp h with h1 | h1
          · exact absurd h1.symm hv
          · exact h1
        have := ih ht
        simp only [specSoftenStep, if_neg hv, List.sum_cons]
        omega

theorem specSoftenStep_count (l : List Nat) (h : 11 ∈ l) :
    (specSoftenStep l).count 11 + 1 = l.count 11 := by
  induction l with
  | nil => cases h
  | cons v t ih =>
      by_cases hv : v = 11
      · subst hv
        simp [specSoftenStep, List.count_cons]
      · have ht : 11 ∈ t := by
          rcases List.mem_cons.mp h with h1 | h1
          · exact absurd h1.symm hv
          · exact h1
        have := ih ht
        simp only [specSoftenStep, if_neg hv, List.count_cons]
        omega

theorem specReduceF_sum : ∀ (n : Nat) (l : List Nat), l.count 11 = n →
    (specReduceF n l).sum = soften l.sum n := by
  intro n
  induction n with
  | zero => intro l h; simp [specReduceF, soften]
  | succ n ih =>
      intro l h
      have hmem : 11 ∈ l := by
        have hp : 0 < l.count 11 := by omega
        exact List.count_pos_iff.mp hp
      by_cases hs : 21 < l.sum
      · have hcond : 21 < l.sum ∧ 11 ∈ l := ⟨hs, hmem⟩
        simp only [specReduceF, if_pos hcond]
        have hc : (specSoftenStep l).count 11 = n := by
          have := specSoftenStep_count l hmem
          omega
        rw [ih _ hc]
        simp only [soften, if_pos hs]
        have hsum := specSoftenStep_sum l hmem
        congr 1
        omega
      · have hcond : ¬ (21 < l.sum ∧ 11 ∈ l) := fun hx => hs hx.1
        simp only [specReduceF, if_neg hcond, soften, if_neg hs]

theorem count_value_eleven (cards : List Card) :
    (cards.map Card.value).count 11 = cards.countP Card.ace := by
  induction cards with
  | nil => rfl
  | cons c t ih =>
      simp only [List.map_cons, List.count_cons, List.countP_cons, ih,
        beq_iff_eq, Card.value_eq_eleven_iff]

/-- Claim C1: for every hand, `Hand.value` equals the specification's
soft-ace reference computation (sum the face values, then repeatedly
re-count one Ace still counted as 11 as 1 while the total exceeds 21); in
particular a hand of two Aces is worth 12. -/
theorem hand_value_matches_spec :
    (∀ h : Hand, h.value = specValue h.cards) ∧
      Hand.value ⟨[cAh, cAs], 0, true⟩ = 12 := by
  constructor
  · intro h
    rw [Hand.value, specValue, specReduceF_sum _ _ rfl, count_value_eleven]
  · decide

/-- Claim C2: settling an active non-bust hand with a positive stake against
a finalized dealer hand deactivates the hand and settles in exactly one of
three ways: a win (at odds 3:2 for a blackjack, evens otherwise) when the
dealer busts or is outscored, a push returning exactly the stake with the
tie tally up by one when the values are equal, and otherwise only the loss
tally up by one with the chips untouched. -/
theorem settle_outcome_spec (dealer : Hand) (p : Player) (h : Hand)
    (hs : 0 < h.stake) (_hb : h.bust = false) (_ha : h.active = true) :
    ((dealer.bust = true ∨ dealer.value < h.value) →
        settle_outcome dealer p h = some
          ({p with
              chips := p.chips +
                pyInt ((h.stake : ℚ) *
                  ((if h.blackjack then (3 / 2 : ℚ) else 1) + 1))
              results := {p.results with wins := p.results.wins + 1}},
           {h with active := false})) ∧
    (dealer.bust = false → h.value = dealer.value →
        settle_outcome dealer p h = some
          ({p with
              chips := p.chips + h.stake
              results := {p.results with ties := p.results.ties + 1}},
           {h with active := false})) ∧
    (dealer.bust = false → h.value < dealer.value →
        settle_outcome dealer p h = some
          (p.loss, {h with active := false})) := by
  refine ⟨?_, ?_, ?_⟩
  · intro hwin
    have hcond : dealer.value < h.value ∨ dealer.bust = true :=
      hwin.elim (fun x => Or.inr x) (fun x => Or.inl x)
    have hodds : (1 : ℚ) ≤ (if h.blackjack then (3 / 2 : ℚ) else 1) := by
      split <;> norm_num
    simp only [settle_outcome, if_pos hcond, Player.win,
      if_pos (And.intro hs hodds)]
  · intro hb0 heq
    have hcond : ¬ (dealer.value < h.value ∨ dealer.bust = true) := by
      rw [hb0]
      simp
      omega
    simp only [settle_outcome, if_neg hcond, if_pos heq, Player.push,
      if_pos hs]
  · intro hb0 hlt
    have hcond : ¬ (dealer.value < h.value ∨ dealer.bust = true) := by
      rw [hb0]
      simp
      omega
    have hne : ¬ h.value = dealer.value := by omega
    simp only [settle_outcome, if_neg hcond, if_neg hne]

/-- Witness for the C2 theorem at the spec's push scenario: dealer K♡ Q♡
(value 20, no bust) against J♢ 10♢ (value 20) with stake 50 pushes, paying
back exactly 50 chips and bumping the tie tally. -/
theorem settle_outcome_spec_witness :
    settle_outcome ⟨[cKh, cQh], 0, true⟩ p0 ⟨[cJd, c10d], 50, true⟩ = some
      ({p0 with
          chips := p0.chips + 50
          results := {p0.results with ties := p0.results.ties + 1}},
       {(⟨[cJd, c10d], 50, true⟩ : Hand) with active := false}) :=
  (settle_outcome_spec ⟨[cKh, cQh], 0, true⟩ p0 ⟨[cJd, c10d], 50, true⟩
    (by decide) (by decide) rfl).2.1 (by decide) (by decide)

/-! ### The split log of the player-turns phase -/

theorem bustHand_splitLog (st : TurnState) (i : Nat) (h : Hand) :
    (bustHand st i h).splitLog = st.splitLog := rfl

theorem dealCardToHand_splitLog (σ : Shuffler) (st : TurnState) (i : Nat) :
    (dealCardToHand σ st i).splitLog = st.splitLog := by
  simp only [dealCardToHand]
  split <;> rfl

theorem doubleDown_splitLog (σ : Shuffler) (st : TurnState) (i : Nat) :
    (doubleDown σ st i).splitLog = st.splitLog := by
  simp only [doubleDown]
  split
  · rfl
  · split
    · rfl
    · split
      · exact dealCardToHand_splitLog σ _ i
      · split
        · rw [bustHand_splitLog]
          exact dealCardToHand_splitLog σ _ i
        · exact dealCardToHand_splitLog σ _ i

theorem playHandLoop_splitLog (σ : Shuffler) :
    ∀ f st i, (playHandLoop σ f st i).splitLog = st.splitLog := by
  intro f
  induction f with
  | zero => intro st i; rfl
  | succ f ih =>
      intro st i
      have hstep : ∀ (st1 : TurnState) (r : Resp),
          (if r = Resp.H then playHandLoop σ f (dealCardToHand σ st1 i) i
           else if r = Resp.S then st1 else doubleDown σ st1 i).splitLog
            = st1.splitLog := by
        intro st1 r
        split
        · rw [ih, dealCardToHand_splitLog]
        · split
          · rfl
          · exact doubleDown_splitLog σ _ i
      simp only [playHandLoop]
      split
      · rfl
      · split
        · rfl
        · split
          · rfl
          · split
            · rfl
            · split
              · rfl
              · exact hstep _ _

/-- A pair is exactly a two-card hand of equal ranks. -/
theorem Hand.pair_shape (h : Hand) (hp : h.pair = true) :
    ∃ c1 c2, h.cards = [c1, c2] ∧ c1.rank = c2.rank := by
  rcases h with ⟨cs, stk, act⟩
  match cs with
  | [] => simp [Hand.pair] at hp
  | [c] => simp [Hand.pair] at hp
  | [c1, c2] =>
      refine ⟨c1, c2, rfl, ?_⟩
      simpa [Hand.pair] using hp
  | c1 :: c2 :: c3 :: t => simp [Hand.pair] at hp

/-- `split_hand` on an affordable pair with a pending yes performs the split
and logs it. -/
theorem split_hand_log (σ : Shuffler) (st : TurnState) (i : Nat) (h : Hand)
    (rest : List Resp)
    (hh : st.player.hands[i]? = some h)
    (hp : h.pair = true)
    (hs : 0 < h.stake)
    (hc : h.stake ≤ st.player.chips)
    (hr : st.responses = Resp.Y :: rest) :
    (split_hand σ st i).splitLog = st.splitLog ++ [i] := by
  obtain ⟨c1, c2, hcards, hrank⟩ := Hand.pair_shape h hp
  have hchips : st.player.has_chips h.stake = some true := by
    rw [Player.has_chips, if_neg (by omega), if_neg (by omega)]
    simp [hc]
  have hsplit : h.split = some ({h with cards := [c1]}, ⟨[c2], h.stake, true⟩) := by
    rcases h with ⟨cs, stk, act⟩
    simp only at hcards
    subst hcards
    simp [Hand.split, hrank]
  have hresp : getResponse st.responses [Resp.Y, Resp.N] Resp.Y = (Resp.Y, rest) := by
    rw [hr]
    simp [getResponse]
  have hbet : st.player.bet h.stake =
      some {st.player with chips := st.player.chips - h.stake} := by
    rw [Player.bet, if_pos hs, hchips]
  simp only [split_hand, hh, hp, if_true, hchips, hresp, hsplit, hbet]
  simp [dealCardToHand_splitLog]

/-- Counterexample to claim C3: starting from a reachable post-deal state
(one hand, the pair 8♡ 8♢ staked at 10, 90 chips left, next deck cards
5♡ 8♧ 2♡ 3♡, user answers Y S Y S S), the engine splits the initial hand
(log entry 0) and then also splits the hand that this split created (log
entry 1): a split-produced hand is split again. -/
theorem no_resplit_cex :
    ¬ (∀ (σ : Shuffler) (fuel : Nat) (st : TurnState), InitialTurnState st →
        ∀ j ∈ (playHands σ fuel st 0).splitLog, j = 0) := by
  intro H
  have h1 := H idSh 20 st0 ⟨rfl, rfl, rfl⟩ 1 (by decide)
  exact absurd h1 (by decide)

/-- Claim C3 (amended): the engine applies the same split rules to every
hand in the player's list — including a hand appended by a previous split:
whenever `play_hand` reaches a hand (at any index, in particular a
split-created one at index ≥ 1) that is a pair whose stake the player can
cover, and the pending answer is yes, it performs a split on that hand. -/
theorem resplit_amended (σ : Shuffler) (f : Nat) (st : TurnState) (i : Nat)
    (h : Hand) (rest : List Resp)
    (hh : st.player.hands[i]? = some h)
    (hp : h.pair = true)
    (hs : 0 < h.stake)
    (hc : h.stake ≤ st.player.chips)
    (hr : st.responses = Resp.Y :: rest) :
    i ∈ (play_hand σ f st i).splitLog := by
  have hchips : st.player.has_chips h.stake = some true := by
    rw [Player.has_chips, if_neg (by omega), if_neg (by omega)]
    simp [hc]
  have hcansplit : st.player.can_split h = some true := by
    rw [Player.can_split, hchips]
    simp [hp]
  have hlog := split_hand_log σ st i h rest hh hp hs hc hr
  simp only [play_hand, hh, hcansplit]
  by_cases he : (split_hand σ st i).err = true
  · rw [if_pos he, hlog]
    simp
  · rw [if_neg he, playHandLoop_splitLog, hlog]
    simp

/-- Witness for the amended C3 theorem: in `stA` the hand at index 1 (the
position a split-created hand occupies) is the pair 8♢ 8♧; `play_hand`
splits it. -/
theorem resplit_amended_witness :
    1 ∈ (play_hand idSh 5 stA 1).splitLog :=
  resplit_amended idSh 5 stA 1 ⟨[c8d, c8c], 10, true⟩ [] (by decide)
    (by decide) (by decide) (by decide) rfl

/-- `pyInt` on an explicitly normalized rational truncates the numerator by
the denominator. -/
theorem pyInt_mk (n : Int) (d : Nat) (h1 : d ≠ 0) (h2 : n.natAbs.Coprime d) :
    pyInt (Rat.mk' n d h1 h2) = n.tdiv d := rfl

/-- Counterexample to claim C4: `win(5, 1.5)` credits `int(5 * 2.5) = 12`
chips, so the balance rises from 100 to 112 — not by the claimed
`amount * (1 + odds) = 12.5`. -/
theorem win_exact_cex :
    Player.win p0 5 (3 / 2) = some ⟨112, [], ⟨1, 0, 0⟩⟩ ∧
      ((112 : ℚ) - 100 ≠ (5 : ℚ) * (1 + 3 / 2)) := by
  constructor
  · have hq : (5 : ℚ) * (3 / 2 + 1) =
        Rat.mk' 25 2 (by norm_num) (by norm_num) := by
      rw [Rat.mk'_eq_divInt, Rat.divInt_eq_div]
      norm_num
    rw [Player.win, if_pos (And.intro (by decide) (by norm_num))]
    rw [show ((5 : Int) : ℚ) = (5 : ℚ) by norm_num, hq, pyInt_mk]
    rfl
  · norm_num

/-- Claim C4 (amended): for a positive amount and odds ≥ 1, `Player.win`
credits `int(amount * (1 + odds))` — the product truncated toward zero —
and increments the win tally by one; the credit equals `amount * (1 + odds)`
exactly whenever that product is an integer. -/
theorem win_trunc_spec (p : Player) (amount : Int) (odds : ℚ)
    (h1 : 0 < amount) (h2 : 1 ≤ odds) :
    p.win amount odds = some
      {p with
        chips := p.chips + pyInt ((amount : ℚ) * (odds + 1))
        results := {p.results with wins := p.results.wins + 1}} ∧
    (∀ k : ℤ, (amount : ℚ) * (odds + 1) = (k : ℚ) →
        pyInt ((amount : ℚ) * (odds + 1)) = k) := by
  constructor
  · rw [Player.win, if_pos (And.intro h1 h2)]
  · intro k hk
    rw [hk, pyInt]
    simp

/-- Witness for the amended C4 theorem: `win(10, 1.5)` pays exactly 25 into
a 100-chip balance (the unit test's `125`), the product being integral. -/
theorem win_trunc_spec_witness :
    Player.win p0 10 (3 / 2) = some ⟨125, [], ⟨1, 0, 0⟩⟩ ∧
      pyInt (((10 : Int) : ℚ) * (3 / 2 + 1)) = 25 := by
  have h := win_trunc_spec p0 10 (3 / 2) (by decide) (by norm_num)
  have h25 := h.2 25 (by norm_num)
  refine ⟨?_, h25⟩
  rw [h.1, h25]
  rfl

/-- Claim C5: `deal` never fails; on an empty deck it replenishes to a fresh
52-card set (the dealt card plus the 51 remaining cards are a permutation of
the full deck), otherwise it removes exactly the card at the draw end, and
the deck length never leaves `[0, 52]`. -/
theorem deal_spec (σ : Shuffler) (d : Deck) :
    (d.cards = [] →
        (Deck.deal σ d).2.cards.length = 51 ∧
          ((Deck.deal σ d).1 :: (Deck.deal σ d).2.cards).Perm newDeck) ∧
    (d.cards ≠ [] →
        d.cards.getLast? = some (Deck.deal σ d).1 ∧
          (Deck.deal σ d).2.cards = d.cards.dropLast) ∧
    (d.cards.length ≤ 52 → (Deck.deal σ d).2.cards.length ≤ 52) := by
  rcases d with ⟨cs⟩
  have h52 : newDeck.length = 52 := rfl
  cases cs with
  | nil =>
      have hlen : (σ.shuffle newDeck).length = 52 :=
        (σ.perm newDeck).length_eq.trans h52
      have hne : σ.shuffle newDeck ≠ [] := by
        intro hnil
        rw [hnil] at hlen
        exact absurd hlen (by decide)
      refine ⟨fun _ => ⟨?_, ?_⟩, fun hne2 => absurd rfl hne2, fun _ => ?_⟩
      · show (σ.shuffle newDeck).dropLast.length = 51
        rw [List.length_dropLast, hlen]
      · show ((σ.shuffle newDeck).getLast hne :: (σ.shuffle newDeck).dropLast).Perm
          newDeck
        have p1 : ((σ.shuffle newDeck).getLast hne ::
            (σ.shuffle newDeck).dropLast).Perm
            ((σ.shuffle newDeck).dropLast ++ [(σ.shuffle newDeck).getLast hne]) :=
          (List.perm_append_singleton _ _).symm
        have p2 : ((σ.shuffle newDeck).dropLast ++
            [(σ.shuffle newDeck).getLast hne]).Perm (σ.shuffle newDeck) := by
          rw [List.dropLast_append_getLast hne]
        exact (p1.trans p2).trans (σ.perm newDeck)
      · show (σ.shuffle newDeck).dropLast.length ≤ 52
        rw [List.length_dropLast, hlen]
        omega
  | cons c rest =>
      refine ⟨fun habs => absurd habs (by simp), fun _ => ⟨?_, rfl⟩, fun hlen => ?_⟩
      · exact (List.getLast?_eq_getLast _ _).symm
      · show (c :: rest).dropLast.length ≤ 52
        rw [List.length_dropLast]
        simp at hlen ⊢
        omega

/-- Witness for the C5 theorem: dealing from an empty deck leaves 51 cards
forming, with the dealt card, a full fresh deck; dealing from a one-card
deck returns that card and leaves the deck empty. -/
theorem deal_spec_witness :
    ((Deck.deal idSh ⟨[]⟩).2.cards.length = 51 ∧
      ((Deck.deal idSh ⟨[]⟩).1 :: (Deck.deal idSh ⟨[]⟩).2.cards).Perm newDeck) ∧
    (([cAh] : List Card).getLast? = some (Deck.deal idSh ⟨[cAh]⟩).1 ∧
      (Deck.deal idSh ⟨[cAh]⟩).2.cards = ([cAh] : List Card).dropLast) :=
  ⟨(deal_spec idSh ⟨[]⟩).1 rfl, (deal_spec idSh ⟨[cAh]⟩).2.1 (by simp)⟩

/-- Claim C6: `split` fails (`AssertionError`) on any hand that is not a
two-card pair, and on a two-card pair it leaves the original hand holding
the first of the two equal-rank cards and returns a new active one-card hand
holding the other, with the same stake. -/
theorem split_spec :
    (∀ h : Hand, h.pair = false → h.split = none) ∧
      (∀ (c1 c2 : Card) (stk : Int) (act : Bool), c1.rank = c2.rank →
        (Hand.mk [c1, c2] stk act).split =
          some (Hand.mk [c1] stk act, Hand.mk [c2] stk true)) := by
  constructor
  · intro h hp
    rcases h with ⟨cs, s, a⟩
    match cs with
    | [] => rfl
    | [c] => rfl
    | [c1, c2] =>
        simp [Hand.pair] at hp
        simp [Hand.split, hp]
    | c1 :: c2 :: c3 :: t => rfl
  · intro c1 c2 stk act hr
    simp [Hand.split, hr]

/-- Witness for the C6 theorem: `{J♡, 5♢}` cannot be split; `{J♡, J♢}`
splits into two one-card jack hands with the stake carried over. -/
theorem split_spec_witness :
    Hand.split ⟨[cJh, c5d], 10, true⟩ = none ∧
      Hand.split ⟨[cJh, cJd], 10, true⟩ =
        some (⟨[cJh], 10, true⟩, ⟨[cJd], 10, true⟩) :=
  ⟨split_spec.1 ⟨[cJh, c5d], 10, true⟩ (by decide),
   split_spec.2 cJh cJd 10 true rfl⟩

/-- Claim C7: for any hand with a well-formed (non-negative) stake,
`can_double_down` holds exactly when the player's chips cover the stake
(a zero stake demanding a positive balance, as `has_chips` does) and the
hand has exactly two cards or is worth 9, 10 or 11. -/
theorem can_double_down_spec (p : Player) (h : Hand) (hs : 0 ≤ h.stake) :
    p.can_double_down h = some true ↔
      ((if h.stake = 0 then 0 < p.chips else h.stake ≤ p.chips) ∧
        (h.cards.length = 2 ∨ h.value = 9 ∨ h.value = 10 ∨ h.value = 11)) := by
  rw [Player.can_double_down, Player.has_chips]
  by_cases h0 : h.stake = 0
  · rw [if_neg (by omega), if_pos h0, if_pos h0]
    simp [Bool.and_eq_true, Bool.or_eq_true, decide_eq_true_eq, or_assoc]
  · rw [if_neg (by omega), if_neg h0, if_neg h0]
    simp [Bool.and_eq_true, Bool.or_eq_true, decide_eq_true_eq, or_assoc]

/-- Witness for the C7 theorem: with 100 chips and the two-card hand
`{5♢, 2♢}` staked at 50, double down is allowed. -/
theorem can_double_down_spec_witness :
    Player.can_double_down p0 ⟨[c5d, c2d], 50, true⟩ = some true :=
  (can_double_down_spec p0 ⟨[c5d, c2d], 50, true⟩ (by decide)).mpr (by decide)

/-! ### The dealer's drawing loop -/

theorem dealerLoop_exit (σ : Shuffler) :
    ∀ (f : Nat) (st : Hand × Deck), 17 ≤ st.1.cards.length + f →
      17 ≤ (dealerLoop σ f st).1.value := by
  intro f
  induction f with
  | zero =>
      intro st h17
      have := Hand.length_le_value st.1
      have hnot : ¬ st.1.value < 17 := by omega
      simp only [dealerLoop]
      omega
  | succ f ih =>
      intro st h17
      rw [dealerLoop]
      split
      · apply ih
        simp only [Hand.add_card, List.length_append, List.length_cons,
          List.length_nil]
        omega
      · omega

theorem dealerLoop_cards (σ : Shuffler) :
    ∀ (f : Nat) (st : Hand × Deck), ∃ cs,
      (dealerLoop σ f st).1.cards = st.1.cards ++ cs ∧
      (dealerLoop σ f st).1.stake = st.1.stake ∧
      (dealerLoop σ f st).1.active = st.1.active ∧
      ∀ n < cs.length,
        (Hand.mk (st.1.cards ++ cs.take n) st.1.stake st.1.active).value < 17 := by
  intro f
  induction f with
  | zero =>
      intro st
      exact ⟨[], by simp [dealerLoop], rfl, rfl, by simp⟩
  | succ f ih =>
      intro st
      rw [dealerLoop]
      by_cases hv : st.1.value < 17
      · rw [if_pos hv]
        obtain ⟨cs, h1, h2, h3, h4⟩ := ih (st.1.add_card (st.2.deal σ).1, (st.2.deal σ).2)
        refine ⟨(st.2.deal σ).1 :: cs, ?_, ?_, ?_, ?_⟩
        · rw [h1]
          simp [Hand.add_card]
        · exact h2
        · exact h3
        · intro n hn
          cases n with
          | zero =>
              simpa using hv
          | succ n =>
              have hn2 : n < cs.length := by simpa using hn
              have := h4 n hn2
              simpa [Hand.add_card] using this
      · rw [if_neg hv]
        exact ⟨[], by simp, rfl, rfl, by simp⟩

/-- Claim C8: with sufficient fuel (any amount reaching 17 minus the current
hand size — the loop provably needs no more), the dealer's drawing loop
stops with a hand worth at least 17, and every card it dealt was dealt to a
hand then worth strictly less than 17: there is no other stopping rule. -/
theorem dealer_turn_policy (σ : Shuffler) (f : Nat) (h : Hand) (d : Deck)
    (hf : 17 ≤ h.cards.length + f) :
    17 ≤ (dealerLoop σ f (h, d)).1.value ∧
    (dealerLoop σ f (h, d)).1.cards =
      h.cards ++ ((dealerLoop σ f (h, d)).1.cards.drop h.cards.length) ∧
    ∀ n < ((dealerLoop σ f (h, d)).1.cards.drop h.cards.length).length,
      (Hand.mk
        (h.cards ++ ((dealerLoop σ f (h, d)).1.cards.drop h.cards.length).take n)
        h.stake h.active).value < 17 := by
  obtain ⟨cs, h1, h2, h3, h4⟩ := dealerLoop_cards σ f (h, d)
  have hdrop : (dealerLoop σ f (h, d)).1.cards.drop h.cards.length = cs := by
    rw [h1]
    exact List.drop_left _ _
  refine ⟨dealerLoop_exit σ f (h, d) hf, ?_, ?_⟩
  · rw [hdrop]
    exact h1
  · rw [hdrop]
    exact h4

/-- Witness for the C8 theorem: the dealer holding 10♡ 6♡ (16) draws 5♡ and
stops at 21 ≥ 17; the one dealt card was dealt at value 16 < 17. -/
theorem dealer_turn_policy_witness :
    17 ≤ (dealerLoop idSh 17 ((⟨[c10h, c6h], 0, true⟩ : Hand), (⟨[c5h]⟩ : Deck))).1.value ∧
      (Hand.mk
        ((⟨[c10h, c6h], 0, true⟩ : Hand).cards ++
          (((dealerLoop idSh 17 ((⟨[c10h, c6h], 0, true⟩ : Hand),
            (⟨[c5h]⟩ : Deck))).1.cards.drop 2).take 0))
        0 true).value < 17 := by
  have h := dealer_turn_policy idSh 17 ⟨[c10h, c6h], 0, true⟩ ⟨[c5h]⟩ (by decide)
  exact ⟨h.1, h.2.2 0 (by decide)⟩

/-- Counterexample to claim C9: adding a king to the soft hand `{A♡, 5♡}`
(worth 16) leaves the value at 16 — the ace is softened — so adding a card
does not strictly increase the hand's value. -/
theorem add_card_increase_cex :
    ¬ (∀ (h : Hand) (c : Card), h.value + 1 ≤ (h.add_card c).value) := by
  intro H
  have h1 := H ⟨[cAh, c5h], 0, true⟩ cKh
  revert h1
  decide

theorem dealerLoop_le_26 (σ : Shuffler) :
    ∀ (f : Nat) (st : Hand × Deck), st.1.value ≤ 26 →
      (dealerLoop σ f st).1.value ≤ 26 := by
  intro f
  induction f with
  | zero => intro st h; simpa [dealerLoop] using h
  | succ f ih =>
      intro st h
      rw [dealerLoop]
      split
      · apply ih
        apply Hand.add_card_le_26
        omega
      · exact h

theorem dealerLoop_fuel (σ : Shuffler) :
    ∀ (f f' : Nat) (st : Hand × Deck), 17 ≤ st.1.cards.length + f → f ≤ f' →
      dealerLoop σ f' st = dealerLoop σ f st := by
  intro f
  induction f with
  | zero =>
      intro f' st h17 _
      have hlen := Hand.length_le_value st.1
      have hv : ¬ st.1.value < 17 := by omega
      cases f' with
      | zero => rfl
      | succ f' =>
          simp only [dealerLoop]
          rw [if_neg hv]
  | succ f ih =>
      intro f' st h17 hle
      cases f' with
      | zero => omega
      | succ f' =>
          by_cases hv : st.1.value < 17
          · simp only [dealerLoop, if_pos hv]
            apply ih
            · simp only [Hand.add_card, List.length_append, List.length_cons,
                List.length_nil]
              have := Hand.length_le_value st.1
              omega
            · omega
          · simp only [dealerLoop, if_neg hv]

/-- Claim C9 (amended): a hand is always worth at least its number of cards
(each card contributes at least 1 after softening, though a drawn card need
not strictly raise the value), so the dealer's drawing loop terminates —
fuel beyond 17 minus the hand size changes nothing — and the dealer's final
value is at most 26 whenever the starting value is (a value below 17 plus
one card worth at most 10 after softening). -/
theorem dealer_turn_bounds :
    (∀ h : Hand, h.cards.length ≤ h.value) ∧
    (∀ (σ : Shuffler) (f : Nat) (h : Hand) (d : Deck), h.value ≤ 26 →
        (dealerLoop σ f (h, d)).1.value ≤ 26) ∧
    (∀ (σ : Shuffler) (f f' : Nat) (st : Hand × Deck),
        17 ≤ st.1.cards.length + f → f ≤ f' →
        dealerLoop σ f' st = dealerLoop σ f st) :=
  ⟨fun h => Hand.length_le_value h,
   fun σ f h d hv => dealerLoop_le_26 σ f (h, d) hv,
   fun σ f f' st h17 hle => dealerLoop_fuel σ f f' st h17 hle⟩

/-- Witness for the amended C9 theorem: a dealer starting at 20 ends at most
at 26, and on a 16-hand any fuel from 15 up gives the same run. -/
theorem dealer_turn_bounds_witness :
    (dealerLoop idSh 5 ((⟨[cKh, cQh], 0, true⟩ : Hand), (⟨[c5h]⟩ : Deck))).1.value ≤ 26 ∧
      dealerLoop idSh 20 ((⟨[c10h, c6h], 0, true⟩ : Hand), (⟨[c5h]⟩ : Deck)) =
        dealerLoop idSh 15 ((⟨[c10h, c6h], 0, true⟩ : Hand), (⟨[c5h]⟩ : Deck)) :=
  ⟨dealer_turn_bounds.2.1 idSh 5 ⟨[cKh, cQh], 0, true⟩ ⟨[c5h]⟩ (by decide),
   dealer_turn_bounds.2.2 idSh 15 20 (⟨[c10h, c6h], 0, true⟩, ⟨[c5h]⟩)
     (by decide) (by decide)⟩

/-- Claim C10: the `Player` constructor rejects a non-positive chip balance,
accepts any positive one, and `has_chips()` with no amount holds exactly
when the balance is strictly positive. -/
theorem player_construction_spec :
    (∀ chips : Int, chips ≤ 0 → Player.make chips = none) ∧
    (∀ chips : Int, 0 < chips → Player.make chips = some ⟨chips, [], ⟨0, 0, 0⟩⟩) ∧
    (∀ p : Player, p.has_chips 0 = some true ↔ 0 < p.chips) := by
  refine ⟨?_, ?_, ?_⟩
  · intro c hc
    rw [Player.make, if_neg (by omega)]
  · intro c hc
    rw [Player.make, if_pos hc]
  · intro p
    rw [Player.has_chips, if_neg (by omega), if_pos rfl]
    simp

/-- Witness for the C10 theorem: 0 starting chips are rejected, 100 are
accepted, and a 100-chip player `has_chips()`. -/
theorem player_construction_spec_witness :
    Player.make 0 = none ∧ Player.make 100 = some p0 ∧
      Player.has_chips p0 0 = some true :=
  ⟨player_construction_spec.1 0 (by decide),
   player_construction_spec.2.1 100 (by decide),
   (player_construction_spec.2.2 p0).mpr (by decide)⟩

